import Mathlib

/-!
Verification development for the codeblock-parameter parser and external
reference resolution pipeline of the Obsidian-Code-Styler plugin.

The TypeScript sources `src/Parsing/CodeblockParsing.ts`,
`src/Parsing/ReferenceParsing.ts` and `src/Referencing.ts` are shallowly
embedded below.  JavaScript strings are modelled as `String`/`List Char`,
JavaScript numbers occurring as indices as `Int` (with `Option Int` where
`NaN` can arise), fallible code as `Except String`.  JavaScript `RegExp`
values whose exact semantics are supplied by the host runtime (regex
compilation validity and regex matching) are abstracted as explicit
function parameters `rvalid : String → Bool` / `rtest : String → String → Bool`;
the concrete regular expressions appearing literally in the source are
translated to executable character-list functions.
-/

deriving instance DecidableEq for Except

namespace CodeStyler

/-- The character class of the JavaScript `\s` escape, restricted to the
ASCII range (plus NBSP); document lines contain no exotic unicode spaces. -/
def jsIsSpaceChar (c : Char) : Bool :=
  c == ' ' || c == '\t' || c == '\n' || c == '\r' ||
  c == '\x0b' || c == '\x0c' || c == ' '

/-- JavaScript `str.split(sep)` for a one-character separator, on char lists.
`"".split(",")` is `[""]`, mirrored by `splitChar sep [] = [[]]`. -/
def splitChar (sep : Char) : List Char → List (List Char)
  | [] => [[]]
  | c :: rest =>
    if c = sep then [] :: splitChar sep rest
    else
      match splitChar sep rest with
      | [] => [[c]]
      | r :: rs => (c :: r) :: rs

/-- JavaScript `String.prototype.trim` on the char-list model: strip
leading and trailing whitespace. -/
def jsTrim (l : List Char) : List Char :=
  ((l.dropWhile jsIsSpaceChar).reverse.dropWhile jsIsSpaceChar).reverse

/-- `trim` on strings (kernel-reducible model of JavaScript `trim`). -/
def jsTrimStr (s : String) : String := String.mk (jsTrim s.toList)

/-- JavaScript `s.startsWith(pre)`, evaluated on the char-list model. -/
def strStartsWith (s pre : String) : Bool := pre.toList.isPrefixOf s.toList

/-- JavaScript `s.endsWith(suf)`, evaluated on the char-list model. -/
def strEndsWith (s suf : String) : Bool := suf.toList.isSuffixOf s.toList

/-- JavaScript `Set.prototype.add` on an insertion-ordered list model:
a duplicate (by value equality) leaves the set unchanged, a new element is
appended at the end. -/
def jsSetAdd [BEq α] (l : List α) (x : α) : List α :=
  if l.contains x then l else l ++ [x]

/-- Accumulated base-10 value of a digit list (the digit-folding core of
JavaScript `parseInt` in radix 10). -/
def digitsVal (l : List Char) : Int :=
  l.foldl (fun a c => a * 10 + ((c.toNat : Int) - 48)) 0

/-- Maximal leading digit run of `parseInt`: `none` models `NaN`
(no digits at all). -/
def digitsPart (l : List Char) : Option Int :=
  let d := l.takeWhile Char.isDigit
  if d.isEmpty then none else some (digitsVal d)

/-- JavaScript `parseInt(s)` (radix 10 path): skip leading whitespace, an
optional sign, then the maximal digit run; `NaN` is `none`.  The rarely hit
`0x` hexadecimal auto-radix of `parseInt` is not modelled; no claim input
contains a hex prefix. -/
def jsParseInt (l : List Char) : Option Int :=
  let l1 := l.dropWhile jsIsSpaceChar
  match l1 with
  | '-' :: r => (digitsPart r).map (fun v => -v)
  | '+' :: r => digitsPart r
  | _ => digitsPart l1

/-- Test of the JavaScript regex `/\d+-\d+/` (unanchored): a match exists
iff some digit is immediately followed by `-` and another digit. -/
def hasDigitDashDigit : List Char → Bool
  | a :: b :: c :: rest =>
    (a.isDigit && b == '-' && c.isDigit) || hasDigitDashDigit (b :: c :: rest)
  | _ => false

/-- Helper for `hasQuotePair`: a closing quote occurs before any newline. -/
def quoteBeforeNewline (q : Char) : List Char → Bool
  | [] => false
  | c :: rest =>
    if c == q then true
    else if c == '\n' then false
    else quoteBeforeNewline q rest

/-- Test of the JavaScript regex `/q.*q/` for a quote character `q`
(`.` does not match newlines): two occurrences of `q` with no newline
in between. -/
def hasQuotePair (q : Char) : List Char → Bool
  | [] => false
  | c :: rest =>
    if c == q then quoteBeforeNewline q rest || hasQuotePair q rest
    else hasQuotePair q rest

/-- Test of the JavaScript regex `/^\/(.*)\/$/`: the rule starts and ends
with a slash, has length at least two, and (`.` matching no newline) has no
newline in between. -/
def isRegexFormRule (l : List Char) : Bool :=
  match l with
  | '/' :: rest =>
    match rest.getLast? with
    | some '/' => (rest.dropLast).all (fun c => c ≠ '\n')
    | _ => false
  | _ => false

/-- The `Highlights` record of `CodeblockParsing.ts`.  JavaScript `Set`s are
modelled as insertion-ordered duplicate-free lists; the `Set<RegExp>` keeps
every inserted pattern (each `new RegExp` is a fresh object, so object-identity
deduplication never merges two entries) and is therefore a plain list of
pattern strings. -/
structure Highlights where
  lineNumbers : List Int
  plainText : List String
  regularExpressions : List String
  deriving Repr, DecidableEq

/-- The empty `Highlights` value all three sets start from. -/
def emptyHighlights : Highlights := ⟨[], [], []⟩

/-- The contribution of the `a-b` numeric-range branch:
`Array.from({length: end - start + 1}, (_, num) => num + start)`. -/
def rangeList (a b : Int) : List Int :=
  (List.range (b - a + 1).toNat).map (fun (i : Nat) => (i : Int) + a)

/-- One iteration of the `highlightRules.forEach` body of
`parseHighlightedLines` (`CodeblockParsing.ts:591-623`), dispatching on the
rule shape with the same test order as the `if`/`else if` chain.
`rvalid` abstracts host regex compilation: `rvalid p = false` models
`new RegExp(p)` throwing (the `try`/`catch` then drops the rule). -/
def highlightRuleStep (rvalid : String → Bool) (h : Highlights)
    (rule : List Char) : Highlights :=
  if hasDigitDashDigit rule then
    let parts := (splitChar '-' rule).map jsParseInt
    match (parts.get? 0).getD none, (parts.get? 1).getD none with
    | some a, some b =>
      if a ≠ 0 && b ≠ 0 && a ≤ b then
        { h with lineNumbers := (rangeList a b).foldl jsSetAdd h.lineNumbers }
      else h
    | _, _ => h
  else if isRegexFormRule rule then
    let pat := String.mk (rule.drop 1).dropLast
    if rvalid pat then
      { h with regularExpressions := h.regularExpressions ++ [pat] }
    else h
  else if hasQuotePair '"' rule then
    { h with plainText := jsSetAdd h.plainText (String.mk ((rule.drop 1).dropLast)) }
  else if hasQuotePair '\'' rule then
    { h with plainText := jsSetAdd h.plainText (String.mk ((rule.drop 1).dropLast)) }
  else if rule.any (fun c => !c.isDigit) then
    { h with plainText := jsSetAdd h.plainText (String.mk rule) }
  else if rule.any Char.isDigit then
    match jsParseInt rule with
    | some v => { h with lineNumbers := jsSetAdd h.lineNumbers v }
    | none => h
  else h

/-- The `forEach` loop of `parseHighlightedLines` as a fold over the
comma-separated rule list. -/
def parseHighlightRules (rvalid : String → Bool) (init : Highlights)
    (rules : List (List Char)) : Highlights :=
  rules.foldl (highlightRuleStep rvalid) init

/-- `parseHighlightedLines` (`CodeblockParsing.ts:586-629`): split the
highlight string on commas and process each rule into the three sets. -/
def parseHighlightedLines (rvalid : String → Bool) (s : String) : Highlights :=
  parseHighlightRules rvalid emptyHighlights (splitChar ',' s.toList)

/-! ## Codeblock segmenter (`parseCodeblockSection`, `CodeblockParsing.ts:74-121`) -/

/-- A character the fence-line prefix regex `\s*(?:>\s*)*` can consume:
whitespace or a blockquote marker. -/
def isPrefChar (c : Char) : Bool := jsIsSpaceChar c || c == '>'

/-- The fence token of a line, per the anchored regex
`^(\s*(?:>\s*)*)(```+|~~~+)`: after the maximal whitespace/blockquote
prefix, a maximal run of at least three backticks or three tildes.
Returns the captured fence run, or `none` when the regex does not match. -/
def openFence (line : List Char) : Option (List Char) :=
  let rest := line.dropWhile isPrefChar
  match rest with
  | c :: _ =>
    if (c == '`' || c == '~') && (rest.takeWhile (· == c)).length ≥ 3 then
      some (rest.takeWhile (· == c))
    else none
  | [] => none

/-- JavaScript `str.indexOf(pat, from) > -1` for a nonempty pattern:
`pat` occurs as a contiguous substring starting at some index `≥ from`. -/
def containsFrom (l pat : List Char) (start : Nat) : Bool :=
  (List.range (l.length + 1)).any (fun i => start ≤ i && pat.isPrefixOf (l.drop i))

/-- `testOpeningLine` (`CodeblockParsing.ts:684-695`): returns the fence
token when the line opens a fence that is not terminated later on the same
line (no second occurrence of the fence string from position
`prefix.length + fence.length + 1` on), and `""` otherwise. -/
def testOpeningLine (codeblockLine : String) : String :=
  let l := codeblockLine.toList
  match openFence l with
  | none => ""
  | some fence =>
    let prefLen := (l.takeWhile isPrefChar).length
    if containsFrom l fence (prefLen + fence.length + 1) then ""
    else String.mk fence

/-- Test of the closing-fence regex
`^\s*(?:>\s*)*FENCE(?!F)$` built in `parseCodeblockSection`
(`CodeblockParsing.ts:89-91`): after the whitespace/blockquote prefix the
line is exactly the fence token (the negative lookahead forbids a longer
run of the fence character, and `$` forbids anything else). -/
def isCloseLine (fence : List Char) (line : String) : Bool :=
  line.toList.dropWhile isPrefChar == fence

/-- Test of the admonition opening regex
`^\s*(?:>\s*)*(?:```+|~~~+) *ad-.*$` (`CodeblockParsing.ts:95`). -/
def isAdmonitionOpen (line : String) : Bool :=
  let l := line.toList
  let rest := l.dropWhile isPrefChar
  match rest with
  | c :: _ =>
    if (c == '`' || c == '~') && (rest.takeWhile (· == c)).length ≥ 3 then
      ['a', 'd', '-'].isPrefixOf ((rest.dropWhile (· == c)).dropWhile (· == ' '))
    else false
  | [] => false

/-- The predicate of `getOpeningLine` (`CodeblockParsing.ts:678-682`):
`Boolean(testOpeningLine(line))` — the empty string is falsy. -/
def isOpeningLine (line : String) : Bool := !(testOpeningLine line == "")

/-- The recursive `parseCodeblockSection` closure
(`CodeblockParsing.ts:74-114`), returning the pushed codeblock line-groups
in push order.  `openDelimiterIndex` is computed in the source as
`codeSection.indexOf(openingCodeblockLine)`; as the opening line is the
first line satisfying `isOpeningLine` and equal strings satisfy the
predicate identically, that index equals `findIdx isOpeningLine`, which is
used here.  A missing closing fence (`findIndex` returning `-1`) is the
`else` branch: the slice arithmetic of the source then degenerates to
`slice(0, openIdx + 1)` / `slice(openIdx + 1)`.  The structural `fuel`
parameter only bounds the recursion depth: every recursive call strictly
shrinks the line list, so `fuel = cs.length` (supplied by the wrapper
below) always suffices and the fuel case is never the reason a branch
returns. -/
def parseCodeblockSectionGo (adm : Bool) : Nat → List String → List (List String)
  | 0, _ => []
  | fuel + 1, cs =>
    let oi := cs.findIdx isOpeningLine
    if h : oi < cs.length then
      match openFence (cs.get ⟨oi, h⟩).toList with
      | none => []
      | some fence =>
        let tail := cs.drop (oi + 1)
        let ci := tail.findIdx (isCloseLine fence)
        if ci < tail.length then
          if adm && isAdmonitionOpen (cs.get ⟨oi, h⟩) then
            parseCodeblockSectionGo adm fuel (tail.take ci) ++
              parseCodeblockSectionGo adm fuel (tail.drop (ci + 1))
          else
            cs.take (oi + 2 + ci) ::
              parseCodeblockSectionGo adm fuel (tail.drop (ci + 1))
        else
          if adm && isAdmonitionOpen (cs.get ⟨oi, h⟩) then
            parseCodeblockSectionGo adm fuel tail
          else
            cs.take (oi + 1) :: parseCodeblockSectionGo adm fuel tail
    else []

/-- `parseCodeblockSection` on a whole section (the entry call of
`CodeblockParsing.ts:115`). -/
def parseCodeblockSection (adm : Bool) (cs : List String) : List (List String) :=
  parseCodeblockSectionGo adm cs.length cs

/-- The lines left over after the segmentation recursion bottoms out with
no further opening fence (the `return` of `parseCodeblockSection` on a
section without codeblocks), for the plain (non-admonition) path: these
are the only input lines that end up in no emitted group.  Runs in
lockstep with `parseCodeblockSectionGo false`. -/
def segmentRestGo : Nat → List String → List String
  | 0, cs => cs
  | fuel + 1, cs =>
    let oi := cs.findIdx isOpeningLine
    if h : oi < cs.length then
      match openFence (cs.get ⟨oi, h⟩).toList with
      | none => cs
      | some fence =>
        let tail := cs.drop (oi + 1)
        let ci := tail.findIdx (isCloseLine fence)
        if ci < tail.length then segmentRestGo fuel (tail.drop (ci + 1))
        else segmentRestGo fuel tail
    else cs

/-- The unconsumed trailing lines of a whole section. -/
def segmentRest (cs : List String) : List String :=
  segmentRestGo cs.length cs

/-- Well-formedness of a document for the segmenter: every opening fence
found during segmentation has a matching closing fence (the `findIndex`
for the close delimiter never returns `-1`). -/
def wellFormedSegGo : Nat → List String → Bool
  | 0, _ => true
  | fuel + 1, cs =>
    let oi := cs.findIdx isOpeningLine
    if h : oi < cs.length then
      match openFence (cs.get ⟨oi, h⟩).toList with
      | none => true
      | some fence =>
        let tail := cs.drop (oi + 1)
        let ci := tail.findIdx (isCloseLine fence)
        if ci < tail.length then wellFormedSegGo fuel (tail.drop (ci + 1))
        else false
    else true

/-- Well-formedness of a whole section. -/
def wellFormedSeg (cs : List String) : Bool :=
  wellFormedSegGo cs.length cs

/-- `arraysEqual` (`CodeblockParsing.ts:715-720`): equal lengths and every
element of the first array is included in the second. -/
def arraysEqual (array1 array2 : List String) : Bool :=
  array1.length == array2.length && array1.all (fun el => array2.contains el)

/-- The `nested` flag computed by `parseCodeblockSource`
(`CodeblockParsing.ts:120`):
`codeblocks[0] ? !arraysEqual(codeSection, codeblocks[0]) : true`.
Emitted groups are never the empty array (each contains at least its
opening fence line), so the falsy test is exactly "no group emitted". -/
def parseNested (adm : Bool) (cs : List String) : Bool :=
  match (parseCodeblockSection adm cs).head? with
  | some b => !(arraysEqual cs b)
  | none => true

/-! ## Title and link parameter handling (`manageTitle`/`manageLink`,
`CodeblockParsing.ts:429-476`) -/

/-- A character admitted by the class `[^\0x1]` of the title/fold regex
`/(["']?)([^\0x1]+)\1/`: in JavaScript this class is NUL, the letter `x`
and the digit `1`, negated (`\0` is the NUL escape, `x` and `1` are
literals). -/
def allowedTitleChar (c : Char) : Bool :=
  !(c == '\x00' || c == 'x' || c == '1')

/-- Backtracking of the quoted alternative of `/(["']?)([^\0x1]+)\1/`
after an opening quote `q` at the match position: the greedy group
`([^\0x1]+)` shrinks from its maximal run until the backreference `\1`
(the same quote) matches; the largest such split wins.  Returns the
captured group, or `none` when no split lets the backreference match. -/
def quotedTitleGroup (q : Char) (rest : List Char) : Option (List Char) :=
  let m := rest.takeWhile allowedTitleChar
  ((List.range (m.length + 1)).reverse.find?
    (fun k => decide (1 ≤ k) && rest.get? k == some q)).map (fun k => m.take k)

/-- Leftmost match of `/(["']?)([^\0x1]+)\1/`, returning capture group 2.
At each position: a position whose character is excluded by the class can
only fail (advance); at a quote character the engine first tries group 1
equal to the quote (with backreference), then group 1 empty (the
backreference then matches the empty string, so the group is the maximal
admitted run including the quote itself); at any other admitted character
group 1 is empty and the group is the maximal admitted run. -/
def titleRegexGroup2 : List Char → Option (List Char)
  | [] => none
  | c :: rest =>
    if !allowedTitleChar c then titleRegexGroup2 rest
    else if c == '"' || c == '\'' then
      match quotedTitleGroup c rest with
      | some g => some g
      | none => some ((c :: rest).takeWhile allowedTitleChar)
    else some ((c :: rest).takeWhile allowedTitleChar)

/-- Match of the wiki-link regex
`/\[\[([^\]|\r\n]+?)(?:\|([^\]|\r\n]+?))?\]\]/` at a `[[` occurrence:
the lazy groups stop at the first `]` or `|` in any case (those characters
are excluded from the classes), so the body is the run up to the first
stop character, an optional `|`-separated label, then `]]`. -/
def wikiInner (rest : List Char) : Option (List Char × Option (List Char)) :=
  let stop := fun (c : Char) => c == ']' || c == '|' || c == '\r' || c == '\n'
  let g1 := rest.takeWhile (fun c => !stop c)
  if g1.isEmpty then none
  else
    match rest.drop g1.length with
    | ']' :: ']' :: _ => some (g1, none)
    | '|' :: r2 =>
      let g2 := r2.takeWhile (fun c => !stop c)
      if g2.isEmpty then none
      else
        match r2.drop g2.length with
        | ']' :: ']' :: _ => some (g1, some g2)
        | _ => none
    | _ => none

/-- Scan for the leftmost successful wiki-link match; on failure at one
`[[` occurrence the engine advances one character (landing on the second
bracket, the head of the tail). -/
def wikiLinkMatch : List Char → Option (List Char × Option (List Char))
  | [] => none
  | c :: rest =>
    if c = '[' then
      match rest with
      | '[' :: rest2 =>
        match wikiInner rest2 with
        | some r => some r
        | none => wikiLinkMatch rest
      | _ => wikiLinkMatch rest
    else wikiLinkMatch rest

/-- After a `[`, split the remainder at the first `](` occurrence
(lazy group 1 of the markdown-link regex), keeping the text before it. -/
def mdSplitAtCloseParen : List Char → Option (List Char × List Char)
  | ']' :: '(' :: rest => some ([], rest)
  | '\n' :: _ => none
  | c :: rest =>
    (mdSplitAtCloseParen rest).map (fun p => (c :: p.1, p.2))
  | [] => none

/-- Match of the markdown-link regex `/\[(.*?)\]\((.+)\)/`: a `[`, a lazy
(shortest) label up to the first `](`, then a greedy nonempty target ending
at the last `)`. -/
def mdLinkMatch : List Char → Option (List Char × List Char)
  | '[' :: rest =>
    (match mdSplitAtCloseParen rest with
     | some (g1, r2) =>
       let upto := (r2.reverse.dropWhile (fun c => c ≠ ')')).drop 1 |>.reverse
       if upto.isEmpty || r2.all (fun c => c ≠ ')') || upto.any (fun c => c == '\n')
       then mdLinkMatch rest
       else some (g1, upto)
     | none => mdLinkMatch rest)
  | _ :: rest => mdLinkMatch rest
  | [] => none

/-- Match of the bare-URL regex `/^(["']?)(https?:\/\/.*)\1$/`: an optional
matching pair of quotes around a string starting `http://` or `https://`
with no newline in it. -/
def urlMatch (l : List Char) : Option (List Char) :=
  let core := fun (m : List Char) =>
    (("http://".toList.isPrefixOf m || "https://".toList.isPrefixOf m) &&
      m.all (fun c => c ≠ '\n') : Bool)
  match l with
  | q :: rest =>
    if (q == '"' || q == '\'') then
      match rest.getLast? with
      | some c =>
        if c == q && core rest.dropLast then some rest.dropLast
        else none
      | none => none
    else if core l then some l else none
  | [] => none

/-- `manageLink` (`CodeblockParsing.ts:453-476`): wiki link, then markdown
link, then bare URL; returns `(title, reference)`. -/
def manageLink (parameterString : String) : Option (String × String) :=
  let l := parameterString.toList
  match wikiLinkMatch l with
  | some (g1, g2?) =>
    some (jsTrimStr (String.mk (g2?.getD g1)), jsTrimStr (String.mk g1))
  | none =>
    match mdLinkMatch l with
    | some (g1, g2) => some (jsTrimStr (String.mk g1), jsTrimStr (String.mk g2))
    | none =>
      match urlMatch l with
      | some u => some ("URL", jsTrimStr (String.mk u))
      | none => none

/-- The `title`/`reference` fields of `CodeblockParameters` affected by
`manageTitle` (the other fields are untouched by it). -/
structure TitleRef where
  title : String
  reference : String
  deriving Repr, DecidableEq

/-- `manageTitle` (`CodeblockParsing.ts:429-440`) on the value after
`title:`: the title-regex capture becomes the title, then a successful
link parse overrides both title and reference. -/
def manageTitleValue (value : String) (params : TitleRef) : TitleRef :=
  let p1 :=
    match titleRegexGroup2 value.toList with
    | some g => { params with title := jsTrimStr (String.mk g) }
    | none => params
  match manageLink value with
  | some li => { p1 with title := li.1, reference := li.2 }
  | none => p1

/-- A whole `title:VALUE` (or `title=VALUE`) parameter token: the source
slices off `"title:".length` characters before processing. -/
def manageTitleToken (token : String) (params : TitleRef) : TitleRef :=
  manageTitleValue (String.mk (token.toList.drop "title:".length)) params

/-! ## Reference parsing (`ReferenceParsing.ts`) -/

/-- The `LineIdentifier` union type
(`null | string | number | RegExp`, `ReferenceParsing.ts:22`).  A compiled
`RegExp` carries its pattern string; its match semantics live in the
abstract `rtest` parameter of the functions below. -/
inductive LineId where
  | null
  | num (n : Int)
  | str (s : String)
  | regex (pattern : String)
  deriving Repr, DecidableEq

/-- `ExtRefParams` (`ReferenceParsing.ts:33-39`); the `headers` record is
an association list with unique keys. -/
structure ExtRefParams where
  id : String
  rawUrl : String
  hostname : String
  headers : List (String × String)
  storePath : String
  deriving Repr, DecidableEq

/-- The fields of `RefParams` (`ReferenceParsing.ts:24-31`). -/
structure RefParams where
  path : String
  storePath : String
  language : String
  start : LineId
  «end» : LineId
  external : Option ExtRefParams
  deriving Repr, DecidableEq

/-- JavaScript substring containment `line.indexOf(s) > -1`
(an empty needle is found at index 0). -/
def containsSub (l pat : List Char) : Bool :=
  (List.range (l.length + 1)).any (fun i => pat.isPrefixOf (l.drop i))

/-- `content.split("\n")` of `getLineLimits`. -/
def jsSplitNl (s : String) : List String :=
  (splitChar '\n' s.toList).map String.mk

/-- JavaScript `array.findIndex(p)` as an `Int` (`-1` when not found). -/
def jsFindIndex (p : α → Bool) (l : List α) : Int :=
  match l.findIdx? p with
  | some i => (i : Int)
  | none => -1

/-- The replacement `s.replace(/^\/(.*)\/$/, "$1")` used to strip the
slashes of a regex-shaped line identifier; when the anchored regex does not
match (fewer than two characters, or a newline inside, which `.` cannot
cross) the string is returned unchanged. -/
def stripRegexSlashes (s : String) : String :=
  let l := s.toList
  if l.length ≥ 2 && l.head? == some '/' && l.getLast? == some '/' &&
      ((l.drop 1).dropLast).all (fun c => c ≠ '\n') then
    String.mk ((l.drop 1).dropLast)
  else s

/-- Resolution of `startIndex` in `getLineLimits`
(`ReferenceParsing.ts:310-327`).  `rtest pat line` abstracts
`new RegExp(pat).test(line)` and `rvalid pat` its compilability (an invalid
pattern makes the uncaught `new RegExp` constructor throw a `SyntaxError`).
A compiled `RegExp` value reaching this code hits
`(params.start as string)?.startsWith("/")`, and `RegExp` objects have no
`startsWith` method, so the call itself throws a `TypeError`. -/
def resolveStartIndex (rtest : String → String → Bool) (rvalid : String → Bool)
    (lines : List String) : LineId → Except String Int
  | .null => .ok 0
  | .num n => .ok (n - 1)
  | .str s =>
    if strStartsWith s "/" && strEndsWith s "/" then
      let pat := stripRegexSlashes s
      if rvalid pat then .ok (jsFindIndex (fun line => rtest pat line) lines)
      else .error "SyntaxError: Invalid regular expression"
    else .ok (jsFindIndex (fun line => containsSub line.toList s.toList) lines)
  | .regex _ => .error "TypeError: params.start.startsWith is not a function"

/-- JavaScript `Number(s)` restricted to the integral case: `none` models
`NaN` (a fractional numeric literal is also mapped to `none`; no claim
exercises fractional offsets). -/
def jsNumber (s : String) : Option Int :=
  let l := (s.toList.dropWhile jsIsSpaceChar).reverse.dropWhile jsIsSpaceChar |>.reverse
  match l with
  | [] => some 0
  | '-' :: r => if r ≠ [] && r.all Char.isDigit then some (-(digitsVal r)) else none
  | '+' :: r => if r ≠ [] && r.all Char.isDigit then some (digitsVal r) else none
  | _ => if l.all Char.isDigit then some (digitsVal l) else none

/-- Resolution of `endIndex` in `getLineLimits`
(`ReferenceParsing.ts:329-348`): as for the start anchor, plus the
`+N` relative form `startIndex + Number(end.slice(1))`; `some`/`none` in
the result distinguishes a real index from `NaN` (`startIndex + NaN`). -/
def resolveEndIndex (rtest : String → String → Bool) (rvalid : String → Bool)
    (lines : List String) (startIndex : Int) : LineId → Except String (Option Int)
  | .null => .ok (some ((lines.length : Int) - 1))
  | .num n => .ok (some (n - 1))
  | .str s =>
    if strStartsWith s "/" && strEndsWith s "/" then
      let pat := stripRegexSlashes s
      if rvalid pat then
        .ok (some (jsFindIndex (fun line => rtest pat line) lines))
      else .error "SyntaxError: Invalid regular expression"
    else if strStartsWith s "+" then
      .ok ((jsNumber (String.mk (s.toList.drop 1))).map (fun n => startIndex + n))
    else .ok (some (jsFindIndex (fun line => containsSub line.toList s.toList) lines))
  | .regex _ => .error "TypeError: params.end.startsWith is not a function"

/-- JavaScript `Array.prototype.slice(start, end)` with possibly negative
or out-of-range integer arguments; `NaN` as an argument converts to `0`
(handled by the caller passing `0`). -/
def jsArraySlice (l : List String) (s e : Int) : List String :=
  (l.take
      (if e < 0 then (max ((l.length : Int) + e) 0).toNat
       else (min e (l.length : Int)).toNat)).drop
    (if s < 0 then (max ((l.length : Int) + s) 0).toNat
     else (min s (l.length : Int)).toNat)

/-- `getLineLimits` (`ReferenceParsing.ts:304-363`): resolve the two
anchors, run the three ordered error checks, then return the joined slice
and the 1-based start line. -/
def getLineLimits (rtest : String → String → Bool) (rvalid : String → Bool)
    (codeContent : String) (params : RefParams) :
    Except String (String × Int) :=
  let lines := jsSplitNl codeContent
  match resolveStartIndex rtest rvalid lines params.start with
  | .error e => .error e
  | .ok startIndex =>
    match resolveEndIndex rtest rvalid lines startIndex params.end with
    | .error e => .error e
    | .ok endIndex? =>
      if (match endIndex? with | some e => decide (startIndex > e) | none => false) then
        .error "Specified Start line is after the specified End line"
      else if startIndex == -1 then
        .error "Start line could not be found"
      else if endIndex? == some (-1 : Int) then
        .error "End line could not be found"
      else
        .ok (String.intercalate "\n"
              (jsArraySlice lines startIndex (match endIndex? with
                | some e => e + 1
                | none => 0)),
             startIndex + 1)

/-! ## Local path resolution (`ReferenceParsing.ts:67-112`) -/

/-- JavaScript `path.replace("\\", "/")`: only the first occurrence of a
string pattern is replaced. -/
def replaceFirstBackslash : List Char → List Char
  | [] => []
  | '\\' :: rest => '/' :: rest
  | c :: rest => c :: replaceFirstBackslash rest

/-- Modelled from the spec: the host's path-normalization primitive
(Obsidian `normalizePath`, imported in `ReferenceParsing.ts:1` but not part
of this repository): backslashes become slashes, repeated slashes collapse,
leading and trailing slashes are stripped. -/
def normalizePath (p : String) : String :=
  let l := (p.toList.map (fun c => if c = '\\' then '/' else c))
  let collapsed := l.foldr
    (fun c acc => if c = '/' && acc.head? == some '/' then acc else c :: acc) []
  String.mk ((collapsed.dropWhile (· == '/')).reverse.dropWhile (· == '/') |>.reverse)

/-- The reserved-character test `/^[^<:"/\\>?|*]/` of `resolveLocalPath`
(`ReferenceParsing.ts:84`): the first character exists and is none of the
reserved path characters. -/
def headFreeOfReserved (l : List Char) : Bool :=
  match l with
  | c :: _ =>
    !(c == '<' || c == ':' || c == '"' || c == '/' || c == '\\' ||
      c == '>' || c == '?' || c == '|' || c == '*')
  | [] => false

/-- `getRelativePath` (`ReferenceParsing.ts:99-112`): strip a leading
`./`, take the source document's directory segments, pop one per leading
`../` (failing when the vault root is escaped), then join and normalize. -/
def getRelativePath (path sourcePath : String) : Except String String :=
  let path := if strStartsWith path "./" then String.mk (path.toList.drop 2) else path
  let vaultDirs := ((splitChar '/' sourcePath.toList).map String.mk).dropLast
  go path.toList vaultDirs
where
  /-- The `while (path.startsWith("../"))` loop; `vaultDirs.pop()` on an
  empty array is `undefined`, triggering the escape error. -/
  go : List Char → List String → Except String String
  | '.' :: '.' :: '/' :: rest, dirs =>
    match dirs.getLast? with
    | none => .error "Path references outside vault, too many \"../\"s used"
    | some _ => go rest dirs.dropLast
  | rest, dirs =>
    .ok (normalizePath (String.intercalate "/" (dirs ++ [String.mk rest])))

/-- `resolveLocalPath` (`ReferenceParsing.ts:67-97`).  The host link index
`plugin.app.metadataCache.getFirstLinkpathDest` is abstracted as
`linkIndex`.  The guard `!sourcePath && sourcePath != ""` can never hold
for an actual string (it requires `undefined`/`null`), so it contributes no
branch here. -/
def resolveLocalPath (linkIndex : String → String → Option String)
    (path sourcePath : String) : Except String String :=
  let path := jsTrimStr path
  if strStartsWith path "[[" && strEndsWith path "]]" then
    .ok ((linkIndex (String.mk ((path.toList.drop 2).dropLast.dropLast)) sourcePath).getD path)
  else
    let path := String.mk (replaceFirstBackslash path.toList)
    if strStartsWith path "@/" then .ok (String.mk (path.toList.drop 2))
    else if strStartsWith path "./" || headFreeOfReserved path.toList then
      getRelativePath path (jsTrimStr sourcePath)
    else if strStartsWith path "/" then
      .error "Path should not start with \"/\", use \"@/\" to reference a path relative to the vault root folder"
    else .error "Cannot resolve path"

/-! ## URL handling in `parseRefParams` (`ReferenceParsing.ts:134-151`) -/

/-- The components of a WHATWG `URL` used by the source. -/
structure JsUrl where
  protocol : String
  hostname : String
  pathname : String
  search : String
  deriving Repr, DecidableEq

/-- A valid URL scheme: an ASCII letter followed by letters, digits,
`+`, `-` or `.`. -/
def validScheme (l : List Char) : Bool :=
  match l with
  | c :: rest =>
    c.isAlpha && rest.all (fun d => d.isAlpha || d.isDigit || d == '+' || d == '-' || d == '.')
  | [] => false

/-- Modelled host runtime primitive: the WHATWG `URL(input)` constructor
(global in the Electron host, not part of this repository).  A string with
no valid `scheme:` prefix is not an absolute URL and makes the constructor
throw `TypeError: Invalid URL`, modelled as `none`.  For special schemes
the authority after `//` is split out as the hostname (ports and userinfo
are not modelled; no claim input carries them), the path runs to the first
`?` and the query (with its `?`) to the end. -/
def jsParseURL (s : String) : Option JsUrl :=
  let l := s.toList
  let scheme := l.takeWhile (fun c => c ≠ ':')
  if scheme.length == l.length || !validScheme scheme then none
  else
    let after := l.drop (scheme.length + 1)
    let protocol := String.mk (scheme.map Char.toLower) ++ ":"
    if ['/', '/'].isPrefixOf after then
      let rest := after.drop 2
      let host := rest.takeWhile (fun c => c ≠ '/' && c ≠ '?' && c ≠ '#')
      let tail := rest.drop host.length
      let path := tail.takeWhile (fun c => c ≠ '?' && c ≠ '#')
      let query := (tail.drop path.length).takeWhile (fun c => c ≠ '#')
      some { protocol := protocol,
             hostname := String.mk (host.map Char.toLower),
             pathname := if path.isEmpty then "/" else String.mk path,
             search := String.mk query }
    else
      some { protocol := protocol, hostname := "", pathname := String.mk after,
             search := "" }

/-- The synthetic cache id computed in `parseRefParams`
(`ReferenceParsing.ts:138-141`):
`[url.hostname, ...(url.pathname + url.search).split("/")].join("-")`. -/
def refId (url : JsUrl) : String :=
  String.intercalate "-"
    (url.hostname :: (splitChar '/' (url.pathname ++ url.search).toList).map String.mk)

/-- The `ExtRefParams` record built in `parseRefParams`
(`ReferenceParsing.ts:143-149`); `refContentPath` abstracts the plugin's
cache-directory path builder `plugin.refContentPath`. -/
def mkExtRefParams (refContentPath : String → String) (path : String)
    (url : JsUrl) (headers : List (String × String)) : ExtRefParams :=
  { id := refId url
    rawUrl := path
    hostname := url.hostname
    headers := headers
    storePath := refContentPath (refId url) }

/-- The `storePath`/`extRefParams` computation of `parseRefParams` after
the path key has been extracted (`ReferenceParsing.ts:134-151`):
`new URL(path)` is called unconditionally, so a path that is not an
absolute URL throws `TypeError: Invalid URL` before `resolveLocalPath` can
run; an `http`/`https` URL builds external parameters; any other scheme
falls through to local resolution. -/
def refStorePath (refContentPath : String → String)
    (linkIndex : String → String → Option String)
    (headers : List (String × String)) (path sourcePath : String) :
    Except String (String × Option ExtRefParams) :=
  match jsParseURL path with
  | none => .error "Invalid URL"
  | some url =>
    if url.protocol == "http:" || url.protocol == "https:" then
      let params := mkExtRefParams refContentPath path url headers
      .ok (params.storePath, some params)
    else
      (resolveLocalPath linkIndex path sourcePath).map (fun sp => (sp, none))

/-! ## GitHub fetch headers (`fetchGitHubSCM`, `ReferenceParsing.ts:246-295`) -/

/-- JavaScript object-spread key update: an existing key keeps its position
but its value is overwritten, a new key is appended. -/
def jsRecordSet (r : List (String × String)) (k v : String) : List (String × String) :=
  if r.any (fun kv => kv.1 == k) then
    r.map (fun kv => if kv.1 == k then (k, v) else kv)
  else r ++ [(k, v)]

/-- Lookup in a record model (first matching key). -/
def jsRecordGet (r : List (String × String)) (k : String) : Option String :=
  (r.find? (fun kv => kv.1 == k)).map (fun kv => kv.2)

/-- The `HEADERS` object of `fetchGitHubSCM` (`ReferenceParsing.ts:256-261`):
`{Accept: ..., "X-GitHub-Api-Version": ..., "User-Agent": ...,
...params?.headers}` — the caller-supplied headers are spread *after* the
three literals, so spread semantics overwrite on key collision. -/
def fetchGitHubSCMHeaders (callerHeaders : List (String × String)) :
    List (String × String) :=
  callerHeaders.foldl (fun acc kv => jsRecordSet acc kv.1 kv.2)
    [("Accept", "application/vnd.github+json"),
     ("X-GitHub-Api-Version", "2022-11-28"),
     ("User-Agent", "Obsidian-Code-Styler")]

/-! ## Reference cache update (`fetchExtRef`, `Referencing.ts:233-258`) -/

/-- An entry of the persisted cache (`IdCache`, `Referencing.ts:22-25`). -/
structure IdCache where
  sourcePaths : List String
  extRefParams : ExtRefParams
  deriving Repr, DecidableEq

/-- The cache object: a JavaScript record `id → IdCache`, modelled as an
association list with unique keys (built up from the empty object). -/
abbrev Cache := List (String × IdCache)

/-- Lookup `cache[id]`. -/
def cacheGet (cache : Cache) (id : String) : Option IdCache :=
  (cache.find? (fun e => e.1 == id)).map (fun e => e.2)

/-- The cache mutation performed by `fetchExtRef`
(`Referencing.ts:249-256`): when the source path is not yet recorded under
the id, create the entry if missing and append the source path. -/
def fetchExtRefCacheStep (cache : Cache) (params : ExtRefParams)
    (sourcePath : String) : Cache :=
  match cacheGet cache params.id with
  | some ic =>
    if ic.sourcePaths.contains sourcePath then cache
    else cache.map (fun e =>
      if e.1 == params.id then
        (e.1, { e.2 with sourcePaths := e.2.sourcePaths ++ [sourcePath] })
      else e)
  | none =>
    cache ++ [(params.id, { sourcePaths := [sourcePath], extRefParams := params })]

/-! ## Lemmas about the highlight-rule pipeline -/

/-- The line numbers a single rule contributes, by the same branch
analysis as `highlightRuleStep`. -/
def ruleContribNums (rule : List Char) : List Int :=
  if hasDigitDashDigit rule then
    let parts := (splitChar '-' rule).map jsParseInt
    match (parts.get? 0).getD none, (parts.get? 1).getD none with
    | some a, some b => if a ≠ 0 && b ≠ 0 && a ≤ b then rangeList a b else []
    | _, _ => []
  else if isRegexFormRule rule then []
  else if hasQuotePair '"' rule then []
  else if hasQuotePair '\'' rule then []
  else if rule.any (fun c => !c.isDigit) then []
  else if rule.any Char.isDigit then
    match jsParseInt rule with
    | some v => [v]
    | none => []
  else []

/-- The plain-text strings a single rule contributes. -/
def ruleContribTexts (rule : List Char) : List String :=
  if hasDigitDashDigit rule then []
  else if isRegexFormRule rule then []
  else if hasQuotePair '"' rule then [String.mk ((rule.drop 1).dropLast)]
  else if hasQuotePair '\'' rule then [String.mk ((rule.drop 1).dropLast)]
  else if rule.any (fun c => !c.isDigit) then [String.mk rule]
  else []

/-- The regex patterns a single rule contributes. -/
def ruleContribRegex (rvalid : String → Bool) (rule : List Char) : List String :=
  if hasDigitDashDigit rule then []
  else if isRegexFormRule rule then
    if rvalid (String.mk ((rule.drop 1).dropLast)) then
      [String.mk ((rule.drop 1).dropLast)]
    else []
  else []

theorem mem_jsSetAdd [BEq α] [LawfulBEq α] {l : List α} {x y : α} :
    y ∈ jsSetAdd l x ↔ y ∈ l ∨ y = x := by
  unfold jsSetAdd
  by_cases h : x ∈ l
  · rw [if_pos (List.elem_iff.mpr h)]
    constructor
    · exact Or.inl
    · rintro (hy | rfl)
      exacts [hy, h]
  · rw [if_neg (fun hc => h (List.elem_iff.mp hc))]
    simp [List.mem_append]

theorem mem_foldl_jsSetAdd [BEq α] [LawfulBEq α] (l : List α) (init : List α) (x : α) :
    x ∈ l.foldl jsSetAdd init ↔ x ∈ init ∨ x ∈ l := by
  induction l generalizing init with
  | nil => simp
  | cons a t ih =>
    simp only [List.foldl_cons, ih, mem_jsSetAdd, List.mem_cons]
    tauto

theorem mem_highlightRuleStep_nums (rvalid : String → Bool) (h : Highlights)
    (rule : List Char) (x : Int) :
    x ∈ (highlightRuleStep rvalid h rule).lineNumbers ↔
      x ∈ h.lineNumbers ∨ x ∈ ruleContribNums rule := by
  unfold highlightRuleStep ruleContribNums
  simp only []
  repeat' split
  all_goals simp [mem_foldl_jsSetAdd, mem_jsSetAdd]

theorem mem_highlightRuleStep_texts (rvalid : String → Bool) (h : Highlights)
    (rule : List Char) (x : String) :
    x ∈ (highlightRuleStep rvalid h rule).plainText ↔
      x ∈ h.plainText ∨ x ∈ ruleContribTexts rule := by
  unfold highlightRuleStep ruleContribTexts
  simp only []
  repeat' split
  all_goals simp [mem_jsSetAdd]

theorem highlightRuleStep_regex (rvalid : String → Bool) (h : Highlights)
    (rule : List Char) :
    (highlightRuleStep rvalid h rule).regularExpressions =
      h.regularExpressions ++ ruleContribRegex rvalid rule := by
  unfold highlightRuleStep ruleContribRegex
  simp only []
  repeat' split
  all_goals simp

theorem mem_parseHighlightRules_nums (rvalid : String → Bool) (init : Highlights)
    (rules : List (List Char)) (x : Int) :
    x ∈ (parseHighlightRules rvalid init rules).lineNumbers ↔
      x ∈ init.lineNumbers ∨ ∃ r ∈ rules, x ∈ ruleContribNums r := by
  induction rules generalizing init with
  | nil => simp [parseHighlightRules]
  | cons a t ih =>
    simp only [parseHighlightRules, List.foldl_cons] at *
    rw [ih, mem_highlightRuleStep_nums]
    simp only [List.mem_cons]
    constructor
    · rintro ((hm | hc) | ⟨r, hr, hm⟩)
      · exact Or.inl hm
      · exact Or.inr ⟨a, Or.inl rfl, hc⟩
      · exact Or.inr ⟨r, Or.inr hr, hm⟩
    · rintro (hm | ⟨r, (rfl | hr), hm⟩)
      · exact Or.inl (Or.inl hm)
      · exact Or.inl (Or.inr hm)
      · exact Or.inr ⟨r, hr, hm⟩

theorem mem_parseHighlightRules_texts (rvalid : String → Bool) (init : Highlights)
    (rules : List (List Char)) (x : String) :
    x ∈ (parseHighlightRules rvalid init rules).plainText ↔
      x ∈ init.plainText ∨ ∃ r ∈ rules, x ∈ ruleContribTexts r := by
  induction rules generalizing init with
  | nil => simp [parseHighlightRules]
  | cons a t ih =>
    simp only [parseHighlightRules, List.foldl_cons] at *
    rw [ih, mem_highlightRuleStep_texts]
    simp only [List.mem_cons]
    constructor
    · rintro ((hm | hc) | ⟨r, hr, hm⟩)
      · exact Or.inl hm
      · exact Or.inr ⟨a, Or.inl rfl, hc⟩
      · exact Or.inr ⟨r, Or.inr hr, hm⟩
    · rintro (hm | ⟨r, (rfl | hr), hm⟩)
      · exact Or.inl (Or.inl hm)
      · exact Or.inl (Or.inr hm)
      · exact Or.inr ⟨r, hr, hm⟩

theorem parseHighlightRules_regex (rvalid : String → Bool) (init : Highlights)
    (rules : List (List Char)) :
    (parseHighlightRules rvalid init rules).regularExpressions =
      init.regularExpressions ++ (rules.map (ruleContribRegex rvalid)).flatten := by
  induction rules generalizing init with
  | nil => simp [parseHighlightRules]
  | cons a t ih =>
    simp only [parseHighlightRules, List.foldl_cons] at *
    rw [ih, highlightRuleStep_regex]
    simp [List.append_assoc]

/-- A permutation of lists of lists flattens to a permutation. -/
theorem perm_flatten_of_perm {l₁ l₂ : List (List α)} (h : l₁.Perm l₂) :
    l₁.flatten.Perm l₂.flatten := by
  induction h with
  | nil => exact List.Perm.refl _
  | cons a _ ih => simpa using ih.append_left a
  | swap a b t =>
    simp only [List.flatten_cons, ← List.append_assoc]
    exact (@List.perm_append_comm _ b a).append_right t.flatten
  | trans _ _ ih₁ ih₂ => exact ih₁.trans ih₂

theorem splitChar_of_not_mem {sep : Char} {l : List Char} (h : sep ∉ l) :
    splitChar sep l = [l] := by
  induction l with
  | nil => rfl
  | cons c t ih =>
    have hc : ¬(c = sep) := fun he => h (he ▸ List.mem_cons_self c t)
    simp only [splitChar, if_neg hc, ih (fun hm => h (List.mem_cons_of_mem c hm))]

theorem splitChar_append {sep : Char} {l1 l2 : List Char} (h : sep ∉ l1) :
    splitChar sep (l1 ++ sep :: l2) = l1 :: splitChar sep l2 := by
  induction l1 with
  | nil => simp [splitChar]
  | cons c t ih =>
    have hc : ¬(c = sep) := fun he => h (he ▸ List.mem_cons_self c t)
    have h' := ih (fun hm => h (List.mem_cons_of_mem c hm))
    simp only [List.cons_append, splitChar, if_neg hc, List.append_eq, h']

theorem isDigit_not_space {c : Char} (h : c.isDigit = true) :
    jsIsSpaceChar c = false := by
  unfold jsIsSpaceChar
  simp only [Bool.or_eq_false_iff, beq_eq_false_iff_ne, ne_eq]
  repeat' constructor
  all_goals (intro he; subst he; exact absurd h (by decide))

theorem jsParseInt_digits {l : List Char} (hne : l ≠ [])
    (hd : ∀ c ∈ l, c.isDigit = true) :
    jsParseInt l = some (digitsVal l) := by
  obtain ⟨c, t, rfl⟩ := List.exists_cons_of_ne_nil hne
  have hc := hd c (List.mem_cons_self c t)
  unfold jsParseInt
  rw [List.dropWhile_cons, if_neg (by rw [isDigit_not_space hc]; simp)]
  simp only []
  split
  · next heq =>
    rw [List.cons.injEq] at heq
    exact absurd (heq.1 ▸ hc) (by decide)
  · next heq =>
    rw [List.cons.injEq] at heq
    exact absurd (heq.1 ▸ hc) (by decide)
  · unfold digitsPart
    rw [List.takeWhile_eq_self_iff.mpr hd]
    simp [List.isEmpty]

theorem mem_rangeList {a b x : Int} (hab : a ≤ b) :
    x ∈ rangeList a b ↔ a ≤ x ∧ x ≤ b := by
  unfold rangeList
  rw [List.mem_map]
  constructor
  · rintro ⟨i, hi, rfl⟩
    rw [List.mem_range] at hi
    have hi' : (i : Int) < b - a + 1 := by omega
    omega
  · rintro ⟨h1, h2⟩
    refine ⟨(x - a).toNat, ?_, ?_⟩
    · rw [List.mem_range]
      omega
    · omega

theorem hasDigitDashDigit_cons {l : List Char} (x : Char)
    (h : hasDigitDashDigit l = true) : hasDigitDashDigit (x :: l) = true := by
  match l, h with
  | a :: b :: c :: rest, h =>
    show (x.isDigit && a == '-' && b.isDigit ||
      hasDigitDashDigit (a :: b :: c :: rest)) = true
    rw [h, Bool.or_true]

theorem hasDigitDashDigit_append {sa : List Char} {d : Char} {rest : List Char}
    (hne : sa ≠ []) (hda : ∀ c ∈ sa, c.isDigit = true) (hd : d.isDigit = true) :
    hasDigitDashDigit (sa ++ '-' :: d :: rest) = true := by
  induction sa with
  | nil => exact absurd rfl hne
  | cons c t ih =>
    have hc := hda c (List.mem_cons_self c t)
    cases t with
    | nil =>
      show (c.isDigit && ('-' == '-') && d.isDigit ||
        hasDigitDashDigit ('-' :: d :: rest)) = true
      rw [hc, hd]
      simp
    | cons c2 t2 =>
      exact hasDigitDashDigit_cons c
        (ih (by simp) (fun e he => hda e (List.mem_cons_of_mem c he)))

/-! ## Claim C7 -/

/-- Claim C7, counterexample: the rule `0-3` has `a = 0 ≤ 3 = b`, yet
`parseHighlightedLines` adds no line numbers for it — the JavaScript guard
`start && end && start <= end` treats the falsy number `0` as failure, so
the claim "if `a <= b` then the lines `a..b` are added" fails at `a = 0`. -/
theorem highlight_range_rule_counterexample :
    (0 : Int) ≤ 3 ∧
      parseHighlightedLines (fun _ => true) "0-3" = emptyHighlights := by
  constructor
  · decide
  · rfl

/-- Claim C7 (amended): for a highlight rule `a-b` over digit strings, if
`1 ≤ a ≤ b` then exactly the line numbers `a` through `b` inclusive are
added (and nothing else); if `a = 0` or `a > b` the rule adds nothing
(the zero case is forced by the truthiness guard `start && end`). -/
theorem highlight_range_rule (rvalid : String → Bool) (sa sb : List Char)
    (hna : sa ≠ []) (hnb : sb ≠ [])
    (hda : ∀ c ∈ sa, c.isDigit = true) (hdb : ∀ c ∈ sb, c.isDigit = true) :
    (1 ≤ digitsVal sa → digitsVal sa ≤ digitsVal sb →
      ((∀ x : Int,
          x ∈ (parseHighlightedLines rvalid (String.mk (sa ++ '-' :: sb))).lineNumbers ↔
            digitsVal sa ≤ x ∧ x ≤ digitsVal sb) ∧
        (parseHighlightedLines rvalid (String.mk (sa ++ '-' :: sb))).plainText = [] ∧
        (parseHighlightedLines rvalid (String.mk (sa ++ '-' :: sb))).regularExpressions = [])) ∧
    ((digitsVal sa = 0 ∨ digitsVal sb < digitsVal sa) →
      parseHighlightedLines rvalid (String.mk (sa ++ '-' :: sb)) = emptyHighlights) := by
  obtain ⟨d, rest, rfl⟩ := List.exists_cons_of_ne_nil hnb
  have hd : d.isDigit = true := hdb d (List.mem_cons_self d rest)
  have hsplit : splitChar ',' (sa ++ '-' :: d :: rest) = [sa ++ '-' :: d :: rest] := by
    apply splitChar_of_not_mem
    intro hm
    rcases List.mem_append.mp hm with h1 | h2
    · exact absurd (hda _ h1) (by decide)
    · rcases List.mem_cons.mp h2 with he | h3
      · exact absurd he (by decide)
      · exact absurd (hdb _ h3) (by decide)
  have hDD : hasDigitDashDigit (sa ++ '-' :: d :: rest) = true :=
    hasDigitDashDigit_append hna hda hd
  have hnotA : ('-') ∉ sa := fun hm => absurd (hda _ hm) (by decide)
  have hnotB : ('-') ∉ d :: rest := fun hm => absurd (hdb _ hm) (by decide)
  have hsd : splitChar '-' (sa ++ '-' :: d :: rest) = [sa, d :: rest] := by
    rw [splitChar_append hnotA, splitChar_of_not_mem hnotB]
  have hpa := jsParseInt_digits hna hda
  have hpb := jsParseInt_digits (List.cons_ne_nil d rest) hdb
  have hto : (String.mk (sa ++ '-' :: d :: rest)).toList = sa ++ '-' :: d :: rest := rfl
  have heval : parseHighlightedLines rvalid (String.mk (sa ++ '-' :: d :: rest)) =
      highlightRuleStep rvalid emptyHighlights (sa ++ '-' :: d :: rest) := by
    unfold parseHighlightedLines parseHighlightRules
    rw [hto, hsplit]
    rfl
  have hstep : highlightRuleStep rvalid emptyHighlights (sa ++ '-' :: d :: rest) =
      if (decide (digitsVal sa ≠ 0) && decide (digitsVal (d :: rest) ≠ 0) &&
          decide (digitsVal sa ≤ digitsVal (d :: rest))) = true then
        { emptyHighlights with
          lineNumbers :=
            (rangeList (digitsVal sa) (digitsVal (d :: rest))).foldl jsSetAdd
              emptyHighlights.lineNumbers }
      else emptyHighlights := by
    unfold highlightRuleStep
    simp only [hDD, if_true, hsd, List.map_cons, List.map_nil, hpa, hpb]
    rfl
  constructor
  · intro h1 h2
    have hguard : (decide (digitsVal sa ≠ 0) && decide (digitsVal (d :: rest) ≠ 0) &&
        decide (digitsVal sa ≤ digitsVal (d :: rest))) = true := by
      simp only [Bool.and_eq_true, decide_eq_true_eq]
      exact ⟨⟨by omega, by omega⟩, h2⟩
    rw [heval, hstep, if_pos hguard]
    refine ⟨?_, rfl, rfl⟩
    intro x
    simp only [emptyHighlights, mem_foldl_jsSetAdd, List.not_mem_nil, false_or]
    exact mem_rangeList h2
  · intro hcase
    have hguard : (decide (digitsVal sa ≠ 0) && decide (digitsVal (d :: rest) ≠ 0) &&
        decide (digitsVal sa ≤ digitsVal (d :: rest))) = false := by
      rcases hcase with h0 | hlt
      · simp [h0]
      · simp [not_le.mpr hlt]
    rw [heval, hstep, if_neg (by rw [hguard]; exact Bool.false_ne_true)]

/-- Witness for the amended claim C7, at the concrete rules `2-4`
(positive case) and `5-3` (empty case). -/
theorem highlight_range_rule_witness :
    (3 : Int) ∈ (parseHighlightedLines (fun _ => true) "2-4").lineNumbers ∧
      parseHighlightedLines (fun _ => true) "5-3" = emptyHighlights := by
  constructor
  · have h := (highlight_range_rule (fun _ => true) "2".toList "4".toList
      (by decide) (by decide) (by decide) (by decide)).1 (by decide) (by decide)
    have hm := (h.1 3).mpr (by decide)
    rw [show String.mk ("2".toList ++ '-' :: "4".toList) = "2-4" from by decide] at hm
    exact hm
  · have h := (highlight_range_rule (fun _ => true) "5".toList "3".toList
      (by decide) (by decide) (by decide) (by decide)).2 (Or.inr (by decide))
    rw [show String.mk ("5".toList ++ '-' :: "3".toList) = "5-3" from by decide] at h
    exact h

/-! ## Claim C8 -/

/-- The regex-validity oracle only matters on rules taking the regex
branch: two oracles agreeing on all stripped patterns of the rule list
give the same parse. -/
theorem parseHighlightRules_rvalid_congr (rv rv' : String → Bool) (init : Highlights)
    (rules : List (List Char))
    (h : ∀ r ∈ rules, isRegexFormRule r = true →
      rv (String.mk ((r.drop 1).dropLast)) = rv' (String.mk ((r.drop 1).dropLast))) :
    parseHighlightRules rv init rules = parseHighlightRules rv' init rules := by
  induction rules generalizing init with
  | nil => rfl
  | cons a t ih =>
    have hstep : highlightRuleStep rv init a = highlightRuleStep rv' init a := by
      unfold highlightRuleStep
      simp only []
      split
      · rfl
      · split
        · next hreg => rw [h a (List.mem_cons_self a t) hreg]
        · rfl
    simp only [parseHighlightRules, List.foldl_cons, hstep]
    exact ih _ (fun r hr => h r (List.mem_cons_of_mem a hr))

/-- Claim C8: the highlight rule list `2-4,/foo.*/,"bar",7` parses (for any
host regex compiler accepting `foo.*`) to line numbers `{2,3,4,7}`, plain
text `{"bar"}` and exactly the single regular expression `foo.*`; and for
every comma-separated rule list, permuting the rules leaves the resulting
line-number and plain-text sets unchanged and permutes the regex list (the
`Set<RegExp>` never merges distinct objects, so it is order-sensitive only
up to permutation). -/
theorem highlight_spec_round_trip :
    (∀ rvalid : String → Bool, rvalid "foo.*" = true →
      parseHighlightedLines rvalid "2-4,/foo.*/,\"bar\",7" =
        ⟨[2, 3, 4, 7], ["bar"], ["foo.*"]⟩) ∧
    (∀ (rvalid : String → Bool) (rules1 rules2 : List (List Char)),
      rules1.Perm rules2 →
      (parseHighlightRules rvalid emptyHighlights rules1).lineNumbers.toFinset =
        (parseHighlightRules rvalid emptyHighlights rules2).lineNumbers.toFinset ∧
      (parseHighlightRules rvalid emptyHighlights rules1).plainText.toFinset =
        (parseHighlightRules rvalid emptyHighlights rules2).plainText.toFinset ∧
      (parseHighlightRules rvalid emptyHighlights rules1).regularExpressions.Perm
        (parseHighlightRules rvalid emptyHighlights rules2).regularExpressions) := by
  constructor
  · intro rvalid hrv
    have e1 : splitChar ',' ("2-4,/foo.*/,\"bar\",7".toList) =
        ["2-4".toList, "/foo.*/".toList, "\"bar\"".toList, "7".toList] := by decide
    unfold parseHighlightedLines
    rw [e1, parseHighlightRules_rvalid_congr rvalid (fun _ => true) _ _ ?hc]
    · decide
    case hc =>
      intro r hr hreg
      simp only [List.mem_cons, List.not_mem_nil, or_false] at hr
      rcases hr with rfl | rfl | rfl | rfl
      · exact absurd hreg (by decide)
      · exact hrv
      · exact absurd hreg (by decide)
      · exact absurd hreg (by decide)
  · intro rvalid rules1 rules2 hperm
    refine ⟨?_, ?_, ?_⟩
    · apply Finset.ext
      intro x
      simp only [List.mem_toFinset, mem_parseHighlightRules_nums]
      exact or_congr Iff.rfl
        ⟨fun ⟨r, hr, hm⟩ => ⟨r, hperm.mem_iff.mp hr, hm⟩,
         fun ⟨r, hr, hm⟩ => ⟨r, hperm.mem_iff.mpr hr, hm⟩⟩
    · apply Finset.ext
      intro x
      simp only [List.mem_toFinset, mem_parseHighlightRules_texts]
      exact or_congr Iff.rfl
        ⟨fun ⟨r, hr, hm⟩ => ⟨r, hperm.mem_iff.mp hr, hm⟩,
         fun ⟨r, hr, hm⟩ => ⟨r, hperm.mem_iff.mpr hr, hm⟩⟩
    · rw [parseHighlightRules_regex, parseHighlightRules_regex]
      exact (perm_flatten_of_perm (hperm.map _)).append_left _

/-- Witness for claim C8, instantiating the regex oracle and a concrete
rule permutation. -/
theorem highlight_spec_round_trip_witness :
    parseHighlightedLines (fun _ => true) "2-4,/foo.*/,\"bar\",7" =
      ⟨[2, 3, 4, 7], ["bar"], ["foo.*"]⟩ ∧
    (parseHighlightRules (fun _ => true) emptyHighlights
        ["7".toList, "2-4".toList]).lineNumbers.toFinset =
      (parseHighlightRules (fun _ => true) emptyHighlights
        ["2-4".toList, "7".toList]).lineNumbers.toFinset :=
  ⟨highlight_spec_round_trip.1 (fun _ => true) rfl,
   (highlight_spec_round_trip.2 (fun _ => true) _ _ (by decide)).1⟩

/-! ## Claim C6 -/

/-- Claim C6, evaluation: a wiki-link `title:[[Note|Label]]` token yields
title `Label` and reference `Note`, and without the pipe both become
`Note`, as claimed; but the quoted token `title:"Example"` yields the
title `"E` — the character class `[^\0x1]` of the title regex excludes the
literal characters `x` and `1` (an apparent typo for `[^\x01]`), so the
greedy group stops before the `x` of `Example` and the backreference
forces the quote-less alternative.  The claim says the title should be
`Example`. -/
theorem manageTitle_eval :
    manageTitleToken "title:[[Note|Label]]" ⟨"", ""⟩ = ⟨"Label", "Note"⟩ ∧
    manageTitleToken "title:[[Note]]" ⟨"", ""⟩ = ⟨"Note", "Note"⟩ ∧
    manageTitleToken "title:\"Example\"" ⟨"", ""⟩ = ⟨"\"E", ""⟩ := by
  refine ⟨?_, ?_, ?_⟩ <;> decide

/-! ## Claim C1 -/

/-- Claim C1, counterexample: a caller-supplied `Accept` header overwrites
the required GitHub API header, because `fetchGitHubSCM` spreads
`params?.headers` *after* its literals. -/
theorem github_headers_counterexample :
    jsRecordGet (fetchGitHubSCMHeaders [("Accept", "text/plain")]) "Accept" ≠
      some "application/vnd.github+json" := by decide

theorem jsRecordGet_map_set (acc : List (String × String)) (k k' v' : String)
    (h : k' ≠ k) :
    jsRecordGet (acc.map (fun kv => if kv.1 == k' then (k', v') else kv)) k =
      jsRecordGet acc k := by
  induction acc with
  | nil => rfl
  | cons a t ih =>
    simp only [List.map_cons]
    unfold jsRecordGet
    rw [List.find?_cons, List.find?_cons]
    by_cases ha : a.1 == k'
    · rw [if_pos ha]
      have ha' : a.1 = k' := eq_of_beq ha
      have h1 : ((k', v').1 == k) = false := beq_eq_false_iff_ne.mpr h
      have h2 : (a.1 == k) = false := beq_eq_false_iff_ne.mpr (ha' ▸ h)
      rw [h1, h2]
      exact ih
    · rw [if_neg ha]
      by_cases hk : a.1 == k
      · rw [hk]
      · rw [Bool.not_eq_true] at hk
        rw [hk]
        exact ih

theorem jsRecordGet_set_ne (acc : List (String × String)) (k k' v' : String)
    (h : k' ≠ k) :
    jsRecordGet (jsRecordSet acc k' v') k = jsRecordGet acc k := by
  unfold jsRecordSet
  split
  · exact jsRecordGet_map_set acc k k' v' h
  · unfold jsRecordGet
    rw [List.find?_append]
    have h1 : List.find? (fun kv => kv.1 == k) [(k', v')] = none := by
      simp [beq_eq_false_iff_ne.mpr h]
    rw [h1]
    cases List.find? (fun kv => kv.1 == k) acc <;> rfl

theorem jsRecordGet_fold_not_mem (hs : List (String × String))
    (acc : List (String × String)) (k : String) (h : ∀ kv ∈ hs, kv.1 ≠ k) :
    jsRecordGet (hs.foldl (fun acc kv => jsRecordSet acc kv.1 kv.2) acc) k =
      jsRecordGet acc k := by
  induction hs generalizing acc with
  | nil => rfl
  | cons a t ih =>
    simp only [List.foldl_cons]
    rw [ih _ (fun kv hkv => h kv (List.mem_cons_of_mem a hkv))]
    exact jsRecordGet_set_ne acc k a.1 a.2 (h a (List.mem_cons_self a t))

/-- Claim C1 (amended): the required GitHub headers hold only when the
caller map does not itself carry those keys — caller headers are spread
after the literals and overwrite them on collision.  When the caller map
mentions neither `Accept` nor `X-GitHub-Api-Version`, the headers sent by
the GitHub fetch carry the required values. -/
theorem github_headers_defaults (hs : List (String × String))
    (hA : ∀ kv ∈ hs, kv.1 ≠ "Accept")
    (hV : ∀ kv ∈ hs, kv.1 ≠ "X-GitHub-Api-Version") :
    jsRecordGet (fetchGitHubSCMHeaders hs) "Accept" =
        some "application/vnd.github+json" ∧
      jsRecordGet (fetchGitHubSCMHeaders hs) "X-GitHub-Api-Version" =
        some "2022-11-28" := by
  unfold fetchGitHubSCMHeaders
  rw [jsRecordGet_fold_not_mem hs _ _ hA, jsRecordGet_fold_not_mem hs _ _ hV]
  exact ⟨rfl, rfl⟩

/-- Witness for the amended claim C1 with a caller map carrying only an
`Authorization` header. -/
theorem github_headers_defaults_witness :
    jsRecordGet (fetchGitHubSCMHeaders [("Authorization", "token t")]) "Accept" =
        some "application/vnd.github+json" ∧
      jsRecordGet (fetchGitHubSCMHeaders [("Authorization", "token t")])
        "X-GitHub-Api-Version" = some "2022-11-28" :=
  github_headers_defaults [("Authorization", "token t")] (by decide) (by decide)

/-! ## Claim C2 -/

/-- Claim C2: local-path reference resolution.  The claim is contradicted
by `parseRefParams` itself: `new URL(path)` is invoked unconditionally
(`ReferenceParsing.ts:136`), and the WHATWG constructor throws
`TypeError: Invalid URL` on every relative/vault-relative/wiki path, so
the entire local branch (`resolveLocalPath`) is unreachable.  The first
conjunct evaluates the parseRefParams path handling at `./foo.md` and
shows the thrown error; the remaining conjuncts show that
`resolveLocalPath`, had it been reached, implements exactly the claimed
shapes. -/
theorem refStorePath_local_invalid_url :
    refStorePath (fun i => "cache/" ++ i) (fun _ _ => none) [] "./foo.md" "docs/note.md" =
        .error "Invalid URL" ∧
      refStorePath (fun i => "cache/" ++ i) (fun _ _ => none) [] "@/x/y.md" "docs/note.md" =
        .error "Invalid URL" ∧
      resolveLocalPath (fun _ _ => none) "./foo.md" "docs/note.md" = .ok "docs/foo.md" ∧
      resolveLocalPath (fun _ _ => none) "@/x/y.md" "docs/note.md" = .ok "x/y.md" ∧
      resolveLocalPath (fun n _ => some ("resolved/" ++ n ++ ".md")) "[[Note]]" "docs/note.md" =
        .ok "resolved/Note.md" ∧
      resolveLocalPath (fun _ _ => none) "../sib.md" "docs/note.md" = .ok "sib.md" ∧
      resolveLocalPath (fun _ _ => none) "../../esc.md" "docs/note.md" =
        .error "Path references outside vault, too many \"../\"s used" ∧
      resolveLocalPath (fun _ _ => none) "/abs.md" "docs/note.md" =
        .error "Path should not start with \"/\", use \"@/\" to reference a path relative to the vault root folder" := by
  refine ⟨?_, ?_, ?_, ?_, ?_, ?_, ?_, ?_⟩ <;> decide

/-! ## Claim C3 -/

/-- Claim C3: with `start` the regex-anchor string `"/^def /"` and `end`
the relative form `"+10"`, `getLineLimits` returns the section running
from the first line matching the regex (per the host's regex semantics
`rtest`) through 10 lines after it, with `startLine` the 1-based index of
that line; and for every content and params whose anchors resolve to
indices with start after end, the range error is thrown. -/
theorem getLineLimits_c3 :
    (∀ (rtest : String → String → Bool) (rvalid : String → Bool)
        (content : String) (i : Nat),
      rvalid "^def " = true →
      (jsSplitNl content).findIdx? (fun line => rtest "^def " line) = some i →
      getLineLimits rtest rvalid content
        { path := "", storePath := "", language := "", start := .str "/^def /",
          «end» := .str "+10", external := none } =
        .ok (String.intercalate "\n" (((jsSplitNl content).drop i).take 11),
             (i : Int) + 1)) ∧
    (∀ (rtest : String → String → Bool) (rvalid : String → Bool)
        (content : String) (params : RefParams) (s e : Int),
      resolveStartIndex rtest rvalid (jsSplitNl content) params.start = .ok s →
      resolveEndIndex rtest rvalid (jsSplitNl content) s params.end = .ok (some e) →
      s > e →
      getLineLimits rtest rvalid content params =
        .error "Specified Start line is after the specified End line") := by
  constructor
  · intro rtest rvalid content i hrv hfind
    have hbound : i < (jsSplitNl content).length :=
      ((List.findIdx?_eq_some_iff_findIdx_eq).mp hfind).1
    have hstart : resolveStartIndex rtest rvalid (jsSplitNl content)
        (.str "/^def /") = .ok (i : Int) := by
      simp only [resolveStartIndex]
      rw [if_pos (by decide)]
      rw [show stripRegexSlashes "/^def /" = "^def " from by decide]
      rw [if_pos hrv]
      simp only [jsFindIndex]
      rw [hfind]
    have hend : resolveEndIndex rtest rvalid (jsSplitNl content) (i : Int)
        (.str "+10") = .ok (some ((i : Int) + 10)) := by
      simp only [resolveEndIndex]
      rw [if_neg (by decide), if_pos (by decide)]
      rw [show jsNumber (String.mk ("+10".toList.drop 1)) = some 10 from by decide]
      rfl
    have hslice : jsArraySlice (jsSplitNl content) (i : Int) ((i : Int) + 10 + 1) =
        ((jsSplitNl content).drop i).take 11 := by
      unfold jsArraySlice
      rw [if_neg (by omega), if_neg (by omega)]
      rw [show (min ((i : Int) + 10 + 1) ((jsSplitNl content).length : Int)).toNat =
          min (i + 11) (jsSplitNl content).length from by omega]
      rw [show (min (i : Int) ((jsSplitNl content).length : Int)).toNat = i from by
        omega]
      rw [List.drop_take]
      rcases le_or_lt (i + 11) (jsSplitNl content).length with h | h
      · rw [min_eq_left h]
        congr 1
        omega
      · rw [min_eq_right (le_of_lt h)]
        rw [List.take_of_length_le (by simp), List.take_of_length_le (by simp; omega)]
    simp only [getLineLimits]
    rw [hstart]
    dsimp only
    rw [hend]
    dsimp only
    rw [if_neg (by simp only [decide_eq_true_eq]; omega)]
    rw [if_neg (by simp only [beq_iff_eq]; omega)]
    rw [if_neg (by simp only [beq_iff_eq, Option.some.injEq]; omega)]
    rw [hslice]
  · intro rtest rvalid content params s e hstart hend hgt
    simp only [getLineLimits]
    rw [hstart]
    dsimp only
    rw [hend]
    dsimp only
    rw [if_pos (decide_eq_true hgt)]

/-- Witness for claim C3: a concrete host regex semantics for `^def `
(prefix match), a 13-line content whose second line matches, and a
concrete start-after-end instance. -/
theorem getLineLimits_c3_witness :
    getLineLimits (fun _ line => strStartsWith line "def ") (fun _ => true)
        "a\ndef f:\nb\nc\nd\ne\nf\ng\nh\ni\nj\nk\nl"
        { path := "", storePath := "", language := "", start := .str "/^def /",
          «end» := .str "+10", external := none } =
      .ok ("def f:\nb\nc\nd\ne\nf\ng\nh\ni\nj\nk", 2) ∧
    getLineLimits (fun _ _ => false) (fun _ => true) "a\nb\nc"
        { path := "", storePath := "", language := "", start := .num 5,
          «end» := .num 2, external := none } =
      .error "Specified Start line is after the specified End line" := by
  constructor
  · have h := getLineLimits_c3.1 (fun _ line => strStartsWith line "def ")
      (fun _ => true) "a\ndef f:\nb\nc\nd\ne\nf\ng\nh\ni\nj\nk\nl" 1 rfl (by decide)
    rw [h]
    decide
  · exact getLineLimits_c3.2 (fun _ _ => false) (fun _ => true) "a\nb\nc"
      _ 4 1 rfl rfl (by omega)

/-! ## Claim C10 -/

/-- Claim C10, counterexample: a numeric `start` of `-5` resolves to index
`-6`, which is neither `> -1` nor `= -1`, so when the end anchor fails
(index `-1`) the supposedly unreachable error is thrown. -/
theorem getLineLimits_end_not_found_counterexample :
    getLineLimits (fun _ _ => false) (fun _ => true) "a"
      { path := "", storePath := "", language := "", start := .num (-5),
        «end» := .str "xyz", external := none } =
      .error "End line could not be found" := by decide

theorem jsFindIndex_ge (p : String → Bool) (l : List String) :
    -1 ≤ jsFindIndex p l := by
  unfold jsFindIndex
  cases h : l.findIdx? p with
  | none => exact le_refl _
  | some i => exact le_trans (by omega) (Int.natCast_nonneg i)

theorem resolveEndIndex_error_strings (rtest : String → String → Bool)
    (rvalid : String → Bool) (lines : List String) (s : Int) (lid : LineId)
    (e : String)
    (h : resolveEndIndex rtest rvalid lines s lid = .error e) :
    e = "SyntaxError: Invalid regular expression" ∨
      e = "TypeError: params.end.startsWith is not a function" := by
  cases lid with
  | null =>
    simp only [resolveEndIndex] at h
    exact Except.noConfusion h
  | num n =>
    simp only [resolveEndIndex] at h
    exact Except.noConfusion h
  | str s' =>
    simp only [resolveEndIndex] at h
    split_ifs at h
    all_goals first
      | exact Except.noConfusion h
      | exact Or.inl (Except.error.inj h).symm
  | regex p =>
    simp only [resolveEndIndex] at h
    exact Or.inr (Except.error.inj h).symm

/-- Claim C10 (amended): the `End line could not be found` branch is
reachable — but only through a numeric `start` whose resolved index is
below `-1` (a number `≤ 0`).  Whenever the resolved start index is at
least `-1` the claimed argument holds and the error cannot be produced;
and every non-numeric start anchor resolves to an index at least `-1`. -/
theorem getLineLimits_end_error_unreachable :
    (∀ (rtest : String → String → Bool) (rvalid : String → Bool)
        (content : String) (params : RefParams) (s : Int),
      resolveStartIndex rtest rvalid (jsSplitNl content) params.start = .ok s →
      -1 ≤ s →
      getLineLimits rtest rvalid content params ≠
        .error "End line could not be found") ∧
    (∀ (rtest : String → String → Bool) (rvalid : String → Bool)
        (lines : List String) (lid : LineId) (s : Int),
      (∀ n : Int, lid ≠ .num n) →
      resolveStartIndex rtest rvalid lines lid = .ok s → -1 ≤ s) := by
  constructor
  · intro rtest rvalid content params s hstart hge
    simp only [getLineLimits]
    rw [hstart]
    dsimp only
    cases hend : resolveEndIndex rtest rvalid (jsSplitNl content) s params.end with
    | error e =>
      dsimp only
      intro hcontra
      have he := (Except.error.inj hcontra)
      rcases resolveEndIndex_error_strings _ _ _ _ _ _ hend with h | h <;>
        (rw [he] at h; exact absurd h (by decide))
    | ok endIdx? =>
      dsimp only
      cases endIdx? with
      | none =>
        by_cases hs : s = -1
        · rw [if_neg (by simp), if_pos (by rw [hs]; rfl)]
          intro hcontra
          exact absurd (Except.error.inj hcontra) (by decide)
        · rw [if_neg (by simp), if_neg (fun hc => hs (eq_of_beq hc)),
            if_neg (by simp)]
          intro hcontra
          exact Except.noConfusion hcontra
      | some e' =>
        by_cases hgt : s > e'
        · rw [if_pos (by exact decide_eq_true hgt)]
          intro hcontra
          exact absurd (Except.error.inj hcontra) (by decide)
        · rw [if_neg (by simp only [decide_eq_true_eq]; exact hgt)]
          by_cases hs : s = -1
          · rw [if_pos (by rw [hs]; rfl)]
            intro hcontra
            exact absurd (Except.error.inj hcontra) (by decide)
          · rw [if_neg (fun hc => hs (eq_of_beq hc))]
            have he' : ¬(e' = -1) := by
              intro h
              subst h
              omega
            rw [if_neg (by
              intro hc
              exact he' (Option.some.inj (eq_of_beq hc)))]
            intro hcontra
            exact Except.noConfusion hcontra
  · intro rtest rvalid lines lid s hnum hstart
    cases lid with
    | null =>
      simp only [resolveStartIndex] at hstart
      have := Except.ok.inj hstart
      omega
    | num n => exact absurd rfl (hnum n)
    | str s' =>
      simp only [resolveStartIndex] at hstart
      split_ifs at hstart
      all_goals first
        | exact Except.noConfusion hstart
        | (rw [← Except.ok.inj hstart]; exact jsFindIndex_ge _ _)
    | regex p =>
      simp only [resolveStartIndex] at hstart
      exact Except.noConfusion hstart

/-- Witness for the amended claim C10: a whole-file start anchor with an
unresolvable end anchor does not produce the end-not-found error. -/
theorem getLineLimits_end_error_unreachable_witness :
    getLineLimits (fun _ _ => false) (fun _ => true) "a"
        { path := "", storePath := "", language := "", start := .null,
          «end» := .str "xyz", external := none } ≠
      .error "End line could not be found" :=
  getLineLimits_end_error_unreachable.1 (fun _ _ => false) (fun _ => true)
    "a" _ 0 rfl (by decide)

/-! ## Claim C9 -/

theorem fetchExtRefCacheStep_twice (params1 params2 : ExtRefParams)
    (hid : params2.id = params1.id) (p1 p2 : String) (hne : p1 ≠ p2) :
    fetchExtRefCacheStep (fetchExtRefCacheStep [] params1 p1) params2 p2 =
      [(params1.id, { sourcePaths := [p1, p2], extRefParams := params1 })] := by
  have hne' : (p2 == p1) = false := beq_eq_false_iff_ne.mpr (Ne.symm hne)
  have h1 : fetchExtRefCacheStep [] params1 p1 =
      [(params1.id, { sourcePaths := [p1], extRefParams := params1 })] := rfl
  rw [h1]
  unfold fetchExtRefCacheStep cacheGet
  rw [hid]
  simp only [List.find?_cons, beq_self_eq_true, Option.map_some]
  simp [hne', Ne.symm hne]

/-- Claim C9: the `ExtRefParams` id built by `parseRefParams` is the
deterministic function `refId` of the URL alone (independent of the source
document and its headers), and after `fetchExtRef` processes reference
blocks from two different documents pointing at the same URL, the cache is
exactly one entry for that id whose `sourcePaths` lists both documents. -/
theorem extref_cache_single_entry (refContentPath : String → String)
    (url : JsUrl) (path : String) (hdr1 hdr2 : List (String × String))
    (p1 p2 : String) (hne : p1 ≠ p2) :
    (mkExtRefParams refContentPath path url hdr1).id = refId url ∧
      (mkExtRefParams refContentPath path url hdr2).id = refId url ∧
      fetchExtRefCacheStep
          (fetchExtRefCacheStep [] (mkExtRefParams refContentPath path url hdr1) p1)
          (mkExtRefParams refContentPath path url hdr2) p2 =
        [(refId url,
          { sourcePaths := [p1, p2],
            extRefParams := mkExtRefParams refContentPath path url hdr1 })] :=
  ⟨rfl, rfl,
    fetchExtRefCacheStep_twice (mkExtRefParams refContentPath path url hdr1)
      (mkExtRefParams refContentPath path url hdr2) rfl p1 p2 hne⟩

/-- Witness for claim C9 at a concrete GitHub URL referenced from two
documents. -/
theorem extref_cache_single_entry_witness :
    fetchExtRefCacheStep
        (fetchExtRefCacheStep []
          (mkExtRefParams (fun i => "cache/" ++ i)
            "https://github.com/o/r/blob/main/b.py"
            { protocol := "https:", hostname := "github.com",
              pathname := "/o/r/blob/main/b.py", search := "" } []) "a.md")
        (mkExtRefParams (fun i => "cache/" ++ i)
          "https://github.com/o/r/blob/main/b.py"
          { protocol := "https:", hostname := "github.com",
            pathname := "/o/r/blob/main/b.py", search := "" } [("X", "y")]) "b.md" =
      [(refId { protocol := "https:", hostname := "github.com",
                pathname := "/o/r/blob/main/b.py", search := "" },
        { sourcePaths := ["a.md", "b.md"],
          extRefParams := mkExtRefParams (fun i => "cache/" ++ i)
            "https://github.com/o/r/blob/main/b.py"
            { protocol := "https:", hostname := "github.com",
              pathname := "/o/r/blob/main/b.py", search := "" } [] })] :=
  (extref_cache_single_entry (fun i => "cache/" ++ i)
    { protocol := "https:", hostname := "github.com",
      pathname := "/o/r/blob/main/b.py", search := "" }
    "https://github.com/o/r/blob/main/b.py" [] [("X", "y")]
    "a.md" "b.md" (by decide)).2.2

/-! ## Claims C4 and C5 -/

theorem segmentGo_partition (fuel : Nat) (cs : List String) :
    (parseCodeblockSectionGo false fuel cs).flatten ++ segmentRestGo fuel cs = cs := by
  induction fuel generalizing cs with
  | zero => rfl
  | succ fuel ih =>
    simp only [parseCodeblockSectionGo, segmentRestGo]
    generalize hoi : cs.findIdx isOpeningLine = oi
    by_cases h : oi < cs.length
    · rw [dif_pos h, dif_pos h]
      cases hof : openFence ((cs.get ⟨oi, h⟩).toList) with
      | none => simp
      | some fence =>
        dsimp only
        generalize hci : (cs.drop (oi + 1)).findIdx (isCloseLine fence) = ci
        by_cases hc : ci < (cs.drop (oi + 1)).length
        · rw [if_pos hc, if_pos hc]
          simp only [Bool.false_and, Bool.false_eq_true, if_false]
          rw [List.flatten_cons, List.append_assoc, ih]
          rw [List.drop_drop]
          rw [show (oi + 1) + (ci + 1) = oi + 2 + ci from by omega]
          exact List.take_append_drop _ cs
        · rw [if_neg hc, if_neg hc]
          simp only [Bool.false_and, Bool.false_eq_true, if_false]
          rw [List.flatten_cons, List.append_assoc, ih]
          exact List.take_append_drop _ cs
    · rw [dif_neg h, dif_neg h]
      simp

theorem segmentGo_infix (adm : Bool) (fuel : Nat) (cs b : List String)
    (hb : b ∈ parseCodeblockSectionGo adm fuel cs) : b <:+: cs := by
  induction fuel generalizing cs with
  | zero => simp [parseCodeblockSectionGo] at hb
  | succ fuel ih =>
    simp only [parseCodeblockSectionGo] at hb
    generalize hoi : cs.findIdx isOpeningLine = oi at hb
    by_cases h : oi < cs.length
    · rw [dif_pos h] at hb
      cases hof : openFence ((cs.get ⟨oi, h⟩).toList) with
      | none =>
        rw [hof] at hb
        simp at hb
      | some fence =>
        rw [hof] at hb
        dsimp only at hb
        have htail : cs.drop (oi + 1) <:+: cs :=
          (List.drop_suffix _ _).isInfix
        by_cases hc : (cs.drop (oi + 1)).findIdx (isCloseLine fence) <
            (cs.drop (oi + 1)).length
        · rw [if_pos hc] at hb
          by_cases hadm : adm && isAdmonitionOpen (cs.get ⟨oi, h⟩)
          · rw [if_pos hadm] at hb
            rcases List.mem_append.mp hb with hm | hm
            · exact (ih _ hm).trans
                (((List.take_prefix _ _).isInfix).trans htail)
            · exact (ih _ hm).trans
                (((List.drop_suffix _ _).isInfix).trans htail)
          · rw [if_neg hadm] at hb
            rcases List.mem_cons.mp hb with rfl | hm
            · exact (List.take_prefix _ _).isInfix
            · exact (ih _ hm).trans
                (((List.drop_suffix _ _).isInfix).trans htail)
        · rw [if_neg hc] at hb
          by_cases hadm : adm && isAdmonitionOpen (cs.get ⟨oi, h⟩)
          · rw [if_pos hadm] at hb
            exact (ih _ hb).trans htail
          · rw [if_neg hadm] at hb
            rcases List.mem_cons.mp hb with rfl | hm
            · exact (List.take_prefix _ _).isInfix
            · exact (ih _ hm).trans htail
    · rw [dif_neg h] at hb
      simp at hb


/-- Claim C4: for every well-formed document with no admonition nesting,
concatenating the emitted codeblock groups in order followed by the
unconsumed non-codeblock lines reconstructs the original line sequence
exactly (each emitted group begins at the start of its residual section, so
the only lines outside every group are the trailing remainder).  The
partition in fact holds for arbitrary documents; well-formedness is the
claim's hypothesis. -/
theorem segmenter_reconstruction (cs : List String)
    (_hwf : wellFormedSeg cs = true) :
    (parseCodeblockSection false cs).flatten ++ segmentRest cs = cs :=
  segmentGo_partition cs.length cs

/-- Witness for claim C4 on a two-codeblock document with surrounding
prose. -/
theorem segmenter_reconstruction_witness :
    wellFormedSeg
        ["pre", "```python x", "code", "```", "mid", "~~~", "c2", "~~~", "post"] =
      true ∧
    (parseCodeblockSection false
        ["pre", "```python x", "code", "```", "mid", "~~~", "c2", "~~~", "post"]).flatten ++
      segmentRest
        ["pre", "```python x", "code", "```", "mid", "~~~", "c2", "~~~", "post"] =
      ["pre", "```python x", "code", "```", "mid", "~~~", "c2", "~~~", "post"] :=
  ⟨by decide, segmenter_reconstruction _ (by decide)⟩

/-- Claim C5: when the segmenter emits at least one group, the `nested`
flag is false exactly when the input is multiset-equal (permutation of)
the first emitted group.  `arraysEqual` itself is only a length-plus-
inclusion check, but the first emitted group is always a contiguous
infix of the input, and an infix of equal length is the whole list, so in
context the check coincides with duplicate-counting permutation
equality (and indeed with literal equality). -/
theorem nested_flag_multiset (adm : Bool) (cs b : List String)
    (h : (parseCodeblockSection adm cs).head? = some b) :
    (parseNested adm cs = false ↔ cs.Perm b) := by
  have hbmem : b ∈ parseCodeblockSection adm cs := by
    cases hl : parseCodeblockSection adm cs with
    | nil =>
      rw [hl] at h
      exact Option.noConfusion h
    | cons x t =>
      rw [hl] at h
      rw [List.head?_cons, Option.some.injEq] at h
      exact h ▸ List.mem_cons_self x t
  have hinf : b <:+: cs := segmentGo_infix adm cs.length cs b hbmem
  unfold parseNested
  rw [h]
  dsimp only
  constructor
  · intro hfalse
    have harr : arraysEqual cs b = true := by
      cases harr : arraysEqual cs b
      · rw [harr] at hfalse
        exact absurd hfalse (by decide)
      · rfl
    unfold arraysEqual at harr
    rw [Bool.and_eq_true] at harr
    have hlen : cs.length = b.length := eq_of_beq harr.1
    have hbe : b = cs := hinf.eq_of_length hlen.symm
    subst hbe
    exact List.Perm.refl _
  · intro hperm
    have hbe : b = cs := hinf.eq_of_length hperm.length_eq.symm
    rw [hbe]
    have harr : arraysEqual cs cs = true := by
      unfold arraysEqual
      rw [Bool.and_eq_true]
      refine ⟨beq_self_eq_true _, ?_⟩
      rw [List.all_eq_true]
      intro el hel
      exact List.elem_iff.mpr hel
    rw [harr]
    rfl

/-- Witness for claim C5: a bare single codeblock has `nested = false`. -/
theorem nested_flag_multiset_witness :
    (parseCodeblockSection false ["```python", "x", "```"]).head? =
        some ["```python", "x", "```"] ∧
      parseNested false ["```python", "x", "```"] = false :=
  ⟨by decide,
   (nested_flag_multiset false ["```python", "x", "```"]
      ["```python", "x", "```"] (by decide)).mpr (List.Perm.refl _)⟩

end CodeStyler
